import Mathlib

/-!
Verification of the epoch-based resource-lifecycle core of the `rendy` factory
(`factory/src/factory.rs`): the completed-epoch ledger updated by
`wait_for_fence` / `wait_for_fences`, the deferred-reclamation cleanup pass,
the staged-upload entry points, fence resetting, and the one-factory-per-process
counter.

Rust vectors become `List`, machine integers (`u64`, `u32`, `usize`) become
`Nat` (the tracked quantities are counters and byte sizes; no wrap-around
arithmetic occurs on them), fallible device calls are driven by explicit
outcome oracles, and `Result`/panic become `Except`/`Option`-style sums.
Rust `vec[i]` indexing on in-range indices is rendered with `List.getD`.
-/

namespace Rendy

/-- A queue reference: the queue-family identifier (`FamilyId`) together with
the queue's index within its family (`fence_epoch.queue.family().0` and
`fence_epoch.queue.index()` in factory.rs). -/
structure QueueId where
  family : Nat
  index : Nat
deriving DecidableEq

/-- Modelled from the spec: `FenceEpoch` lives in `rendy-command`, which is not
among the sources; per §2/§4.4 it "binds a fence handle to (queue identifier,
epoch)". -/
structure FenceEpoch where
  queue : QueueId
  epoch : Nat
deriving DecidableEq

/-- Modelled from the spec: the signal state of a fence (`rendy-command`, not
among the sources). A fence is created unsignaled, marked signaled when a wait
confirms the signal, and "reused only after being explicitly reset" (§3). -/
inductive FenceMark
  | reset
  | armed
  | signaled
deriving DecidableEq

/-- Modelled from the spec: `Fence<B>` from `rendy-command` (not among the
sources) carries its signal state and the (queue, epoch) pair it was bound to
at submission (§3 FenceEpoch). -/
structure Fence where
  mark : FenceMark
  fepoch : FenceEpoch
deriving DecidableEq

/-- The epoch-tracking portion of `Factory<B>` (factory.rs lines 29-42):
`families_indices` maps a family id to the position of that family in the
`families` vector (built at init, lines 169-172), and `epochs` holds, per
family position, the completed epoch of every queue of that family
(initialised to zeroes, lines 181-187). -/
structure EpochState where
  familiesIndices : List Nat
  epochs : List (List Nat)
deriving DecidableEq

/-- In-place update of one list position, the pure counterpart of writing
through `&mut lock[index]`. Out-of-range positions leave the list unchanged. -/
def modifyIdx (f : α → α) : Nat → List α → List α
  | _, [] => []
  | 0, x :: xs => f x :: xs
  | n + 1, x :: xs => x :: modifyIdx f n xs

/-- The storage address of a queue's completed-epoch entry: the family's
position (`families_indices[family.0]`, factory.rs line 508) paired with the
queue index into that family's epoch vector (line 510). -/
def EpochState.addr (st : EpochState) (q : QueueId) : Nat × Nat :=
  (st.familiesIndices.getD q.family 0, q.index)

/-- The completed epoch currently stored for queue `q`. -/
def EpochState.completed (st : EpochState) (q : QueueId) : Nat :=
  (st.epochs.getD (st.addr q).1 []).getD (st.addr q).2 0

/-- The epoch entry for `q` exists in the nested epoch vectors. -/
def EpochState.inRange (st : EpochState) (q : QueueId) : Prop :=
  (st.addr q).1 < st.epochs.length ∧
    (st.addr q).2 < (st.epochs.getD (st.addr q).1 []).length

instance (st : EpochState) (q : QueueId) : Decidable (st.inRange q) := by
  unfold EpochState.inRange; infer_instance

/-- The epoch-folding step shared by both wait paths (factory.rs lines
508-511, 556-560, 570-574): `*epoch = max(*epoch, fence_epoch.epoch)` on the
entry addressed by the fence's queue. -/
def EpochState.advance (st : EpochState) (fe : FenceEpoch) : EpochState :=
  { st with
    epochs :=
      modifyIdx (fun qs => modifyIdx (fun e => max e fe.epoch) fe.queue.index qs)
        (st.familiesIndices.getD fe.queue.family 0) st.epochs }

/-- Outcome of the device-level single-fence wait: signaled within the
timeout, timed out, or a device error (`OomOrDeviceLost`). -/
inductive WaitOutcome
  | signaled
  | timedOut
  | deviceError
deriving DecidableEq

/-- Modelled from the spec: `Fence::wait_signaled` (`rendy-command`, not among
the sources). On a confirmed signal the fence is marked signaled and its bound
(queue, epoch) pair is returned; "a timed-out wait simply reports
non-completion and leaves all epoch state unchanged" (§5); a device failure is
an error. -/
def Fence.wait_signaled (f : Fence) (outcome : WaitOutcome) :
    Except Unit (Option FenceEpoch × Fence) :=
  match outcome with
  | .signaled => .ok (some f.fepoch, { f with mark := .signaled })
  | .timedOut => .ok (none, f)
  | .deviceError => .error ()

/-- `Factory::wait_for_fence` (factory.rs lines 501-517): wait on one fence;
on a confirmed signal, fold its bound epoch into the completed entry of its
queue by `max` and return `true`; on timeout return `false`. -/
def wait_for_fence (st : EpochState) (fence : Fence) (outcome : WaitOutcome) :
    Except Unit (EpochState × Fence × Bool) :=
  match fence.wait_signaled outcome with
  | .ok (some fenceEpoch, fence') => .ok (st.advance fenceEpoch, fence', true)
  | .ok (none, fence') => .ok (st, fence', false)
  | .error e => .error e

/-- Outcome of a device-level boolean query (`wait_for_fences`,
`get_fence_status`): a boolean, or a device error propagated by `?`. -/
inductive StatusResult
  | ok (b : Bool)
  | err
deriving DecidableEq

/-- The `WaitFor` policy of gfx-hal (factory.rs line 523). -/
inductive WaitFor
  | any
  | all
deriving DecidableEq

/-- The `WaitFor::Any` arm of `Factory::wait_for_fences` (factory.rs lines
549-563): each fence's status is re-queried with `get_fence_status`; a fence
confirmed signaled is marked signaled and its epoch folded in by `max`; a
status-query error aborts the loop through `?`, keeping the updates already
made and leaving the remaining fences untouched. The returned flag records
whether the loop finished without a device error. -/
def waitAnyLoop : EpochState → List (Fence × StatusResult) →
    EpochState × List Fence × Bool
  | st, [] => (st, [], true)
  | st, (f, .err) :: rest => (st, f :: rest.map Prod.fst, false)
  | st, (f, .ok true) :: rest =>
    let out := waitAnyLoop (st.advance f.fepoch) rest
    (out.1, { f with mark := FenceMark.signaled } :: out.2.1, out.2.2)
  | st, (f, .ok false) :: rest =>
    let out := waitAnyLoop st rest
    (out.1, f :: out.2.1, out.2.2)

/-- The `WaitFor::All` arm of `Factory::wait_for_fences` (factory.rs lines
564-576): every fence is marked signaled and its epoch folded in by `max`,
with no per-fence status query. -/
def waitAllLoop : EpochState → List Fence → EpochState × List Fence
  | st, [] => (st, [])
  | st, f :: rest =>
    let out := waitAllLoop (st.advance f.fepoch) rest
    (out.1, { f with mark := FenceMark.signaled } :: out.2)

/-- `Factory::wait_for_fences` (factory.rs lines 520-579): a combined device
wait over the collected fences (`combined` is its outcome; each fence is
paired with the outcome its individual `get_fence_status` query would
return, consulted only by the `Any` arm). Returns the updated epoch state,
the fences with their updated marks, and the `Result<bool, _>` value. -/
def wait_for_fences (st : EpochState) (fences : List (Fence × StatusResult))
    (waitFor : WaitFor) (combined : StatusResult) :
    EpochState × List Fence × Except Unit Bool :=
  match combined with
  | .err => (st, fences.map Prod.fst, .error ())
  | .ok false => (st, fences.map Prod.fst, .ok false)
  | .ok true =>
    match waitFor with
    | .any =>
      let out := waitAnyLoop st fences
      (out.1, out.2.1, if out.2.2 then .ok true else .error ())
    | .all =>
      let out := waitAllLoop st (fences.map Prod.fst)
      (out.1, out.2, .ok true)

/-- Modelled from the spec: a pending-destroy resource as seen by the Resource
Registry (`rendy-resource`, not among the sources). §3: each resource carries
an optional last-use record per queue, "the most recent epoch at which GPU
work referencing it was submitted"; an empty record means never submitted. -/
structure Resource where
  lastUse : List (QueueId × Nat)
deriving DecidableEq

/-- Modelled from the spec: the release test of `Resources::cleanup`
(`rendy-resource`, not among the sources). §4.2: "compare its last-use epoch
(per queue) against the supplied completed epoch for that queue; release ...
only when completed ≥ last-use for every queue that ever referenced it."
A resource with no last-use record passes vacuously (§4.2 edge case). -/
def canRelease (completed : EpochState) (r : Resource) : Bool :=
  r.lastUse.all fun p => decide (p.2 ≤ completed.completed p.1)

/-- Modelled from the spec: `Resources::cleanup` as invoked from
`Factory::cleanup` (factory.rs lines 627-636) with the gathered next and
completed epochs. Splits the pending-destroy list into the released resources
and the still-retained ones; per §4.2 the decision compares last-use records
against the completed epochs (the next epochs do not loosen it). -/
def registryCleanup (completed : EpochState) (pending : List Resource) :
    List Resource × List Resource :=
  pending.partition (canRelease completed)

-- ## Staged uploads

/-- `format().surface_desc()` of an image format: aspect mask, surface
dimensions and bits per texel (factory.rs lines 347, 353-357). -/
structure SurfaceDesc where
  aspects : Nat
  dimW : Nat
  dimH : Nat
  bits : Nat
deriving DecidableEq

/-- The parts of `Image<B>` consulted by `upload_image`: its format's surface
descriptor, `kind().num_layers()` and `info().levels` (factory.rs 347-350). -/
structure ImageDesc where
  surface : SurfaceDesc
  numLayers : Nat
  levels : Nat
deriving DecidableEq

/-- `image::SubresourceLayers` as consulted by the assertions of
`upload_image` (factory.rs lines 347-350). -/
structure SubresourceLayers where
  aspects : Nat
  layersStart : Nat
  layersEnd : Nat
  level : Nat
deriving DecidableEq

/-- `image::Extent` (factory.rs lines 354-356). -/
structure Extent where
  width : Nat
  height : Nat
  depth : Nat
deriving DecidableEq

/-- Texel count of the upload region (factory.rs lines 354-356):
`(extent.width / dim.0) * (extent.height / dim.1) * extent.depth`, with the
truncating division of `u32`. -/
def texelsCount (extent : Extent) (fd : SurfaceDesc) : Nat :=
  extent.width / fd.dimW * (extent.height / fd.dimH) * extent.depth

/-- Byte size of the upload region (factory.rs line 357):
`(format_desc.bits / 8) * texels_count`. -/
def totalBytes (extent : Extent) (fd : SurfaceDesc) : Nat :=
  fd.bits / 8 * texelsCount extent fd

/-- What an upload entry point hands to the per-family uploader: the staging
buffer's size and alignment as passed to `create_buffer` (factory.rs lines
312, 363: alignment 256, size = content byte size), the byte count copied
into it by `upload_visible_buffer` from offset 0 (lines 314, 365, 284-293),
and the index of the family uploader it is dispatched to
(`families_indices[next.queue.family().0]`, lines 316-317, 367-368). -/
structure UploadDispatch where
  stagingSize : Nat
  stagingAlign : Nat
  copiedBytes : Nat
  familyIndex : Nat
deriving DecidableEq

/-- `Factory::upload_buffer` (factory.rs lines 303-326), viewed through the
staging allocation and routing it performs: `content_size =
content.len() * size_of::<T>()`, a 256-aligned staging buffer of exactly that
size, the content copied in full, and dispatch to
`uploads.families[families_indices[next.queue.family().0]]`. -/
def upload_buffer (contentLen elemSize : Nat) (nextFamily : Nat)
    (familiesIndices : List Nat) : UploadDispatch :=
  let contentSize := contentLen * elemSize
  { stagingSize := contentSize
    stagingAlign := 256
    copiedBytes := contentSize
    familyIndex := familiesIndices.getD nextFamily 0 }

/-- `Factory::upload_image` (factory.rs lines 335-381): the assertion prelude
(lines 347-361) checks the aspect masks, the layer range against the image's
layer count, the mip level against the image's level count, and that the
region's byte size equals the content's byte size; a failed assertion aborts
the call (`none`) before any staging allocation. On success the staging
allocation and routing mirror `upload_buffer`. -/
def upload_image (img : ImageDesc) (layers : SubresourceLayers)
    (extent : Extent) (contentLen elemSize : Nat) (nextFamily : Nat)
    (familiesIndices : List Nat) : Option UploadDispatch :=
  if img.surface.aspects = layers.aspects ∧
      layers.layersStart ≤ layers.layersEnd ∧
      layers.layersEnd ≤ img.numLayers ∧
      layers.level ≤ img.levels ∧
      totalBytes extent img.surface = contentLen * elemSize then
    some (upload_buffer contentLen elemSize nextFamily familiesIndices)
  else
    none

-- ## Factory initialisation counter

/-- Result of one `Factory::init` call as far as the singleton assertion is
concerned. -/
inductive InitOutcome
  | ok
  | panicked
deriving DecidableEq

/-- The singleton gate of `Factory::init` (factory.rs lines 23, 148-152):
`assert_eq!(FACTORY_ID.fetch_add(1, Relaxed), 0)` — the call observes the
current counter value, increments it, and panics unless the observed value
was 0. Returns the outcome and the new counter value. -/
def factoryInitGate (counter : Nat) : InitOutcome × Nat :=
  (if counter = 0 then .ok else .panicked, counter + 1)

-- ## Fence resetting

/-- Modelled from the spec: `Fence::is_signaled` (`rendy-command`, not among
the sources) reports whether the fence is in the signaled state. -/
def Fence.is_signaled (f : Fence) : Bool :=
  decide (f.mark = FenceMark.signaled)

/-- Modelled from the spec: `Fence::mark_reset` (`rendy-command`, not among
the sources) records that the fence was reset and may be reused (§3). -/
def Fence.mark_reset (f : Fence) : Fence :=
  { f with mark := FenceMark.reset }

/-- Result of `Factory::reset_fences`: an assertion panic, a device error
(with the fences' marks untouched), or success (with every fence marked
reset). -/
inductive ResetOutcome
  | panicked
  | deviceError (fences : List Fence)
  | ok (fences : List Fence)
deriving DecidableEq

/-- `Factory::reset_fences` (factory.rs lines 480-498): collecting the fences
asserts `is_signaled` on each of them, before the device-level
`reset_fences` runs on the whole collection; a device error propagates with
no fence marked reset; on success every fence is marked reset. -/
def reset_fences (fences : List Fence) (deviceOk : Bool) : ResetOutcome :=
  if fences.all Fence.is_signaled then
    if deviceOk then .ok (fences.map Fence.mark_reset)
    else .deviceError fences
  else .panicked

-- ## The factory ledger as a transition system

/-- The epoch ledger of a running factory: the completed-epoch state, the
per-queue `next` counters (held by the queues themselves, read by
`Factory::next_epochs`, factory.rs lines 607-615, laid out family-position by
queue-index exactly like `epochs`), and the live fence bindings. The queue
counters and the submission-time fence binding live in `rendy-command`, which
is not among the sources; they are modelled from the spec (§4.4). -/
structure LedgerModel where
  est : EpochState
  next : List (List Nat)
  fences : List FenceEpoch
deriving DecidableEq

/-- The `next` epoch of queue `q` (the value `q.next_epoch()` reads). -/
def LedgerModel.nextEpoch (m : LedgerModel) (q : QueueId) : Nat :=
  (m.next.getD (m.est.addr q).1 []).getD (m.est.addr q).2 0

/-- An operation on the factory, with every device outcome it depends on
supplied as data. -/
inductive FactoryOp
  /-- Modelled from the spec: one discrete submission to queue `q` (§4.4:
  "`next` increments by exactly one for each discrete submission"), optionally
  binding a freshly-issued fence to the submission's epoch (§4.4 binder
  contract; glossary: `next` is "the epoch assigned to the next unit of
  submitted work"). -/
  | submit (q : QueueId) (bindFence : Bool)
  /-- `Factory::wait_for_fence` on the `i`-th live fence binding. -/
  | waitForFence (i : Nat) (outcome : WaitOutcome)
  /-- `Factory::wait_for_fences` on the given fence bindings, each paired
  with its individual status-query outcome. -/
  | waitForFences (picks : List (Nat × StatusResult)) (waitFor : WaitFor)
      (combined : StatusResult)
  /-- `Factory::cleanup` (factory.rs lines 627-636): reads the epochs and
  runs the registry cleanup; it writes no epoch. -/
  | cleanupOp
  /-- `Factory::upload_buffer` / `Factory::upload_image` (factory.rs lines
  303-381): stage and dispatch to a family uploader; they write no epoch. -/
  | uploadOp

/-- One step of the factory ledger. -/
def stepOp (m : LedgerModel) : FactoryOp → LedgerModel
  | .submit q bindFence =>
    let e := m.nextEpoch q
    { m with
      next := modifyIdx (fun qs => modifyIdx (fun n => n + 1) q.index qs)
        (m.est.addr q).1 m.next
      fences := if bindFence then ⟨q, e⟩ :: m.fences else m.fences }
  | .waitForFence i outcome =>
    match m.fences.get? i with
    | none => m
    | some fe =>
      match wait_for_fence m.est ⟨.armed, fe⟩ outcome with
      | .ok (est', _, _) => { m with est := est' }
      | .error _ => m
  | .waitForFences picks waitFor combined =>
    let gathered := picks.filterMap fun p =>
      (m.fences.get? p.1).map fun fe => ((⟨.armed, fe⟩ : Fence), p.2)
    { m with est := (wait_for_fences m.est gathered waitFor combined).1 }
  | .cleanupOp => m
  | .uploadOp => m

/-- Run a list of factory operations in order. -/
def runOps (m : LedgerModel) : List FactoryOp → LedgerModel
  | [] => m
  | op :: ops => runOps (stepOp m op) ops

/-- The ledger produced by `Factory::init` (factory.rs lines 174-192): for
each family position its queue count, every completed epoch 0 (lines
181-187), every queue `next` counter at its starting value, and no live
fences. -/
def initLedger (familiesIndices : List Nat) (queueCounts : List Nat) :
    LedgerModel :=
  { est :=
      { familiesIndices := familiesIndices
        epochs := queueCounts.map fun n => List.replicate n 0 }
    next := queueCounts.map fun n => List.replicate n 0
    fences := [] }

/-- The ledger invariant: every live fence is bound to an epoch not above its
queue's `next` counter, and every completed epoch is bounded by the
corresponding `next` counter. -/
def LedgerModel.Inv (m : LedgerModel) : Prop :=
  (∀ fe ∈ m.fences, fe.epoch ≤ m.nextEpoch fe.queue) ∧
    ∀ q : QueueId, m.est.completed q ≤ m.nextEpoch q

/-- `Factory::cleanup` (factory.rs lines 627-636): gathers the per-queue next
epochs and the stored completed epochs and hands them, together with the
pending-destroy resources, to the registry cleanup. -/
def factoryCleanup (m : LedgerModel) (pending : List Resource) :
    List Resource × List Resource :=
  registryCleanup m.est pending

/-- The fold of `max` over the bound epochs of those fences whose individual
status query returned signaled and whose queue addresses the entry `a` — the
cumulative effect of the `WaitFor::Any` arm on that completed-epoch entry. -/
def sigFold (familiesIndices : List Nat) (a : Nat × Nat) (base : Nat) :
    List (Fence × StatusResult) → Nat
  | [] => base
  | (f, s) :: rest =>
    sigFold familiesIndices a
      (if s = StatusResult.ok true ∧
          (familiesIndices.getD f.fepoch.queue.family 0, f.fepoch.queue.index) = a
        then max base f.fepoch.epoch else base) rest

-- ## Lemmas on list updates and epoch advancing

theorem modifyIdx_length (f : α → α) (i : Nat) (l : List α) :
    (modifyIdx f i l).length = l.length := by
  induction l generalizing i with
  | nil => cases i <;> rfl
  | cons x xs ih => cases i <;> simp [modifyIdx, ih]

theorem modifyIdx_getD (f : α → α) (i : Nat) (l : List α) (j : Nat) (d : α) :
    (modifyIdx f i l).getD j d =
      if i = j ∧ j < l.length then f (l.getD j d) else l.getD j d := by
  induction l generalizing i j with
  | nil => cases i <;> simp [modifyIdx]
  | cons x xs ih =>
    cases i with
    | zero => cases j <;> simp [modifyIdx]
    | succ n =>
      cases j with
      | zero => simp [modifyIdx]
      | succ k =>
        simp only [modifyIdx, List.getD_cons_succ, ih, List.length_cons,
          Nat.add_lt_add_iff_right, Nat.add_right_cancel_iff]

theorem advance_familiesIndices (st : EpochState) (fe : FenceEpoch) :
    (st.advance fe).familiesIndices = st.familiesIndices := rfl

theorem advance_addr (st : EpochState) (fe : FenceEpoch) (q : QueueId) :
    (st.advance fe).addr q = st.addr q := rfl

theorem advance_epochs_length (st : EpochState) (fe : FenceEpoch) :
    (st.advance fe).epochs.length = st.epochs.length :=
  modifyIdx_length _ _ _

theorem advance_getD_length (st : EpochState) (fe : FenceEpoch) (a : Nat) :
    ((st.advance fe).epochs.getD a []).length = (st.epochs.getD a []).length := by
  show ((modifyIdx _ _ st.epochs).getD a []).length = _
  rw [modifyIdx_getD]
  split
  · exact modifyIdx_length _ _ _
  · rfl

theorem advance_inRange (st : EpochState) (fe : FenceEpoch) (q : QueueId) :
    (st.advance fe).inRange q ↔ st.inRange q := by
  unfold EpochState.inRange
  rw [advance_addr, advance_epochs_length, advance_getD_length]

theorem completed_advance (st : EpochState) (fe : FenceEpoch) (q : QueueId) :
    (st.advance fe).completed q =
      if st.addr q = st.addr fe.queue ∧ st.inRange q then
        max (st.completed q) fe.epoch
      else st.completed q := by
  have hq2 : (st.addr q).2 = q.index := rfl
  have hf : st.addr fe.queue =
      (st.familiesIndices.getD fe.queue.family 0, fe.queue.index) := rfl
  show ((modifyIdx _ _ st.epochs).getD (st.addr q).1 []).getD (st.addr q).2 0 = _
  rw [modifyIdx_getD]
  by_cases h1 : st.familiesIndices.getD fe.queue.family 0 = (st.addr q).1 ∧
      (st.addr q).1 < st.epochs.length
  · rw [if_pos h1, modifyIdx_getD]
    by_cases h2 : fe.queue.index = (st.addr q).2 ∧
        (st.addr q).2 < (st.epochs.getD (st.addr q).1 []).length
    · rw [if_pos h2, if_pos]
      · rfl
      · refine ⟨?_, h1.2, h2.2⟩
        rw [hf, Prod.ext_iff]
        exact ⟨h1.1.symm, by rw [hq2]; exact h2.1.symm⟩
    · have hcond : ¬(st.addr q = st.addr fe.queue ∧ st.inRange q) := by
        rintro ⟨ha, -, hr⟩
        rw [hf, Prod.ext_iff] at ha
        exact h2 ⟨ha.2.symm, hr⟩
      rw [if_neg h2, if_neg hcond]
      rfl
  · have hcond : ¬(st.addr q = st.addr fe.queue ∧ st.inRange q) := by
      rintro ⟨ha, hl, -⟩
      rw [hf, Prod.ext_iff] at ha
      exact h1 ⟨ha.1.symm, hl⟩
    rw [if_neg h1, if_neg hcond]
    rfl

theorem completed_advance_mono (st : EpochState) (fe : FenceEpoch) (q : QueueId) :
    st.completed q ≤ (st.advance fe).completed q := by
  rw [completed_advance]
  split
  · exact le_max_left _ _
  · exact le_refl _

theorem completed_advance_le (st : EpochState) (fe : FenceEpoch) (q : QueueId)
    (B : Nat) (h1 : st.completed q ≤ B)
    (h2 : st.addr fe.queue = st.addr q → fe.epoch ≤ B) :
    (st.advance fe).completed q ≤ B := by
  rw [completed_advance]
  split
  · next h => exact max_le h1 (h2 h.1.symm)
  · exact h1

-- ## Lemmas on the wait loops

theorem waitAnyLoop_familiesIndices (L : List (Fence × StatusResult))
    (st : EpochState) :
    ((waitAnyLoop st L).1).familiesIndices = st.familiesIndices := by
  induction L generalizing st with
  | nil => rfl
  | cons p rest ih =>
    obtain ⟨f, s⟩ := p
    cases s with
    | err => rfl
    | ok b =>
      cases b with
      | false => exact ih st
      | true => exact ih (st.advance f.fepoch)

theorem sigFold_cons (fi : List Nat) (a : Nat × Nat) (base : Nat) (f : Fence)
    (s : StatusResult) (rest : List (Fence × StatusResult)) :
    sigFold fi a base ((f, s) :: rest) =
      sigFold fi a
        (if s = StatusResult.ok true ∧
            (fi.getD f.fepoch.queue.family 0, f.fepoch.queue.index) = a
          then max base f.fepoch.epoch else base) rest := rfl

theorem waitAnyLoop_completed (L : List (Fence × StatusResult)) :
    ∀ (st : EpochState) (q : QueueId), st.inRange q →
      (∀ p ∈ L, p.2 ≠ StatusResult.err) →
      ((waitAnyLoop st L).1).completed q =
        sigFold st.familiesIndices (st.addr q) (st.completed q) L := by
  induction L with
  | nil => intro st q _ _; rfl
  | cons p rest ih =>
    intro st q hin hne
    obtain ⟨f, s⟩ := p
    cases s with
    | err => exact absurd rfl (hne (f, .err) (List.mem_cons_self _ _))
    | ok b =>
      cases b with
      | false =>
        have h := ih st q hin fun p hp => hne p (List.mem_cons_of_mem _ hp)
        show ((waitAnyLoop st rest).1).completed q = _
        rw [h, sigFold_cons, if_neg]
        rintro ⟨hs, -⟩
        cases hs
      | true =>
        have hin' : (st.advance f.fepoch).inRange q :=
          (advance_inRange st f.fepoch q).mpr hin
        have h := ih (st.advance f.fepoch) q hin'
          fun p hp => hne p (List.mem_cons_of_mem _ hp)
        rw [advance_familiesIndices, advance_addr, completed_advance] at h
        show ((waitAnyLoop (st.advance f.fepoch) rest).1).completed q = _
        rw [h, sigFold_cons]
        by_cases hc : st.addr f.fepoch.queue = st.addr q
        · rw [if_pos ⟨hc.symm, hin⟩, if_pos ⟨rfl, hc⟩]
        · rw [if_neg fun hh => hc hh.1.symm, if_neg fun hh => hc hh.2]

theorem waitAnyLoop_untouched (L : List (Fence × StatusResult)) :
    ∀ (st : EpochState) (q : QueueId),
      (∀ p ∈ L, p.2 = StatusResult.ok true →
        st.addr p.1.fepoch.queue ≠ st.addr q) →
      ((waitAnyLoop st L).1).completed q = st.completed q := by
  induction L with
  | nil => intro st q _; rfl
  | cons p rest ih =>
    intro st q hL
    obtain ⟨f, s⟩ := p
    cases s with
    | err => rfl
    | ok b =>
      cases b with
      | false => exact ih st q fun p hp hs => hL p (List.mem_cons_of_mem _ hp) hs
      | true =>
        have hne : st.addr f.fepoch.queue ≠ st.addr q :=
          hL (f, .ok true) (List.mem_cons_self _ _) rfl
        have h := ih (st.advance f.fepoch) q
          fun p hp hs => hL p (List.mem_cons_of_mem _ hp) hs
        show ((waitAnyLoop (st.advance f.fepoch) rest).1).completed q = _
        rw [h, completed_advance, if_neg]
        rintro ⟨ha, -⟩
        exact hne ha.symm

theorem waitAnyLoop_ok (L : List (Fence × StatusResult)) :
    ∀ st : EpochState, (∀ p ∈ L, p.2 ≠ StatusResult.err) →
      ((waitAnyLoop st L).2).2 = true := by
  induction L with
  | nil => intro st _; rfl
  | cons p rest ih =>
    intro st hne
    obtain ⟨f, s⟩ := p
    cases s with
    | err => exact absurd rfl (hne (f, .err) (List.mem_cons_self _ _))
    | ok b =>
      cases b with
      | false => exact ih st fun p hp => hne p (List.mem_cons_of_mem _ hp)
      | true => exact ih (st.advance f.fepoch) fun p hp => hne p (List.mem_cons_of_mem _ hp)

theorem waitAnyLoop_completed_mono (L : List (Fence × StatusResult)) :
    ∀ (st : EpochState) (q : QueueId),
      st.completed q ≤ ((waitAnyLoop st L).1).completed q := by
  induction L with
  | nil => intro st q; exact le_refl _
  | cons p rest ih =>
    intro st q
    obtain ⟨f, s⟩ := p
    cases s with
    | err => exact le_refl _
    | ok b =>
      cases b with
      | false => exact ih st q
      | true =>
        exact le_trans (completed_advance_mono st f.fepoch q)
          (ih (st.advance f.fepoch) q)

theorem waitAnyLoop_completed_le (L : List (Fence × StatusResult)) :
    ∀ (st : EpochState) (q : QueueId) (B : Nat), st.completed q ≤ B →
      (∀ p ∈ L, st.addr p.1.fepoch.queue = st.addr q → p.1.fepoch.epoch ≤ B) →
      ((waitAnyLoop st L).1).completed q ≤ B := by
  induction L with
  | nil => intro st q B hst _; exact hst
  | cons p rest ih =>
    intro st q B hst hL
    obtain ⟨f, s⟩ := p
    cases s with
    | err => exact hst
    | ok b =>
      cases b with
      | false => exact ih st q B hst fun p hp => hL p (List.mem_cons_of_mem _ hp)
      | true =>
        exact ih (st.advance f.fepoch) q B
          (completed_advance_le st f.fepoch q B hst
            (hL (f, .ok true) (List.mem_cons_self _ _)))
          fun p hp => hL p (List.mem_cons_of_mem _ hp)

theorem waitAllLoop_familiesIndices (L : List Fence) (st : EpochState) :
    ((waitAllLoop st L).1).familiesIndices = st.familiesIndices := by
  induction L generalizing st with
  | nil => rfl
  | cons f rest ih => exact ih (st.advance f.fepoch)

theorem waitAllLoop_snd (L : List Fence) (st : EpochState) :
    (waitAllLoop st L).2 =
      L.map fun f => { f with mark := FenceMark.signaled } := by
  induction L generalizing st with
  | nil => rfl
  | cons f rest ih =>
    show ({ f with mark := FenceMark.signaled } ::
      (waitAllLoop (st.advance f.fepoch) rest).2) = _
    rw [List.map_cons, ih]

theorem waitAllLoop_completed_mono (L : List Fence) :
    ∀ (st : EpochState) (q : QueueId),
      st.completed q ≤ ((waitAllLoop st L).1).completed q := by
  induction L with
  | nil => intro st q; exact le_refl _
  | cons f rest ih =>
    intro st q
    exact le_trans (completed_advance_mono st f.fepoch q)
      (ih (st.advance f.fepoch) q)

theorem waitAllLoop_advances (L : List Fence) :
    ∀ (st : EpochState) (f : Fence), f ∈ L → st.inRange f.fepoch.queue →
      f.fepoch.epoch ≤ ((waitAllLoop st L).1).completed f.fepoch.queue := by
  induction L with
  | nil => intro st f hf _; cases hf
  | cons g rest ih =>
    intro st f hf hin
    rcases List.mem_cons.mp hf with h | h
    · subst h
      show f.fepoch.epoch ≤
        ((waitAllLoop (st.advance f.fepoch) rest).1).completed f.fepoch.queue
      refine le_trans ?_
        (waitAllLoop_completed_mono rest (st.advance f.fepoch) f.fepoch.queue)
      rw [completed_advance, if_pos ⟨rfl, hin⟩]
      exact le_max_right _ _
    · exact ih (st.advance g.fepoch) f h
        ((advance_inRange st g.fepoch f.fepoch.queue).mpr hin)

theorem waitAllLoop_completed_le (L : List Fence) :
    ∀ (st : EpochState) (q : QueueId) (B : Nat), st.completed q ≤ B →
      (∀ f ∈ L, st.addr f.fepoch.queue = st.addr q → f.fepoch.epoch ≤ B) →
      ((waitAllLoop st L).1).completed q ≤ B := by
  induction L with
  | nil => intro st q B hst _; exact hst
  | cons g rest ih =>
    intro st q B hst hL
    exact ih (st.advance g.fepoch) q B
      (completed_advance_le st g.fepoch q B hst (hL g (List.mem_cons_self _ _)))
      fun f hf => hL f (List.mem_cons_of_mem _ hf)

-- ## Lemmas on the factory ledger

theorem addr_congr (st' st : EpochState)
    (h : st'.familiesIndices = st.familiesIndices) (q : QueueId) :
    st'.addr q = st.addr q := by
  unfold EpochState.addr
  rw [h]

theorem nextEpoch_congr (m : LedgerModel) (q q' : QueueId)
    (h : m.est.addr q = m.est.addr q') : m.nextEpoch q = m.nextEpoch q' := by
  unfold LedgerModel.nextEpoch
  rw [h]

theorem nextEpoch_eq_of (m' m : LedgerModel) (hn : m'.next = m.next)
    (hfi : m'.est.familiesIndices = m.est.familiesIndices) (q : QueueId) :
    m'.nextEpoch q = m.nextEpoch q := by
  unfold LedgerModel.nextEpoch
  rw [hn, addr_congr _ _ hfi]

theorem nestedModify_getD_le (g : Nat → Nat) (hg : ∀ x, x ≤ g x) (b1 b2 : Nat)
    (l : List (List Nat)) (a : Nat × Nat) :
    (l.getD a.1 []).getD a.2 0 ≤
      ((modifyIdx (fun qs => modifyIdx g b2 qs) b1 l).getD a.1 []).getD a.2 0 := by
  rw [modifyIdx_getD]
  split
  · rw [modifyIdx_getD]
    split
    · exact hg _
    · exact le_refl _
  · exact le_refl _

theorem stepOp_familiesIndices (m : LedgerModel) (op : FactoryOp) :
    ((stepOp m op).est).familiesIndices = m.est.familiesIndices := by
  cases op with
  | submit q b => rfl
  | waitForFence i outcome =>
    simp only [stepOp]
    cases h : m.fences.get? i with
    | none => rfl
    | some fe =>
      cases outcome with
      | signaled => rfl
      | timedOut => rfl
      | deviceError => rfl
  | waitForFences picks wf combined =>
    cases combined with
    | err => rfl
    | ok b =>
      cases b with
      | false => rfl
      | true =>
        cases wf with
        | any => exact waitAnyLoop_familiesIndices _ _
        | all => exact waitAllLoop_familiesIndices _ _
  | cleanupOp => rfl
  | uploadOp => rfl

theorem stepOp_next (m : LedgerModel) (op : FactoryOp) :
    (stepOp m op).next = m.next ∨
      ∃ q : QueueId, (stepOp m op).next =
        modifyIdx (fun qs => modifyIdx (fun n => n + 1) q.index qs)
          (m.est.addr q).1 m.next := by
  cases op with
  | submit q b => exact Or.inr ⟨q, rfl⟩
  | waitForFence i outcome =>
    left
    simp only [stepOp]
    cases h : m.fences.get? i with
    | none => rfl
    | some fe =>
      cases outcome with
      | signaled => rfl
      | timedOut => rfl
      | deviceError => rfl
  | waitForFences picks wf combined => exact Or.inl rfl
  | cleanupOp => exact Or.inl rfl
  | uploadOp => exact Or.inl rfl

theorem stepOp_next_mono (m : LedgerModel) (op : FactoryOp) (q : QueueId) :
    m.nextEpoch q ≤ (stepOp m op).nextEpoch q := by
  have haddr : ((stepOp m op).est).addr q = m.est.addr q :=
    addr_congr _ _ (stepOp_familiesIndices m op) q
  unfold LedgerModel.nextEpoch
  rw [haddr]
  rcases stepOp_next m op with h | ⟨q', h⟩
  · rw [h]
  · rw [h]
    exact nestedModify_getD_le _ (fun n => Nat.le_succ n) _ _ m.next (m.est.addr q)

theorem stepOp_completed_mono (m : LedgerModel) (op : FactoryOp) (q : QueueId) :
    m.est.completed q ≤ ((stepOp m op).est).completed q := by
  cases op with
  | submit q' b => exact le_refl _
  | cleanupOp => exact le_refl _
  | uploadOp => exact le_refl _
  | waitForFence i outcome =>
    simp only [stepOp]
    cases h : m.fences.get? i with
    | none => exact le_refl _
    | some fe =>
      cases outcome with
      | signaled => exact completed_advance_mono m.est fe q
      | timedOut => exact le_refl _
      | deviceError => exact le_refl _
  | waitForFences picks wf combined =>
    cases combined with
    | err => exact le_refl _
    | ok b =>
      cases b with
      | false => exact le_refl _
      | true =>
        cases wf with
        | any => exact waitAnyLoop_completed_mono _ m.est q
        | all => exact waitAllLoop_completed_mono _ m.est q

theorem inv_of_est_update (m : LedgerModel) (est' : EpochState)
    (hfi : est'.familiesIndices = m.est.familiesIndices)
    (hcle : ∀ q : QueueId, est'.completed q ≤ m.nextEpoch q)
    (hInv : m.Inv) :
    ({ m with est := est' } : LedgerModel).Inv := by
  obtain ⟨hf, hc⟩ := hInv
  have hnx : ∀ q : QueueId,
      ({ m with est := est' } : LedgerModel).nextEpoch q = m.nextEpoch q :=
    fun q => nextEpoch_eq_of { m with est := est' } m rfl hfi q
  refine ⟨fun fe' hfe' => ?_, fun q' => ?_⟩
  · rw [hnx]
    exact hf fe' hfe'
  · rw [hnx]
    exact hcle q'

theorem stepOp_inv (m : LedgerModel) (op : FactoryOp) (hInv : m.Inv) :
    (stepOp m op).Inv := by
  obtain ⟨hf, hc⟩ := hInv
  cases op with
  | cleanupOp => exact ⟨hf, hc⟩
  | uploadOp => exact ⟨hf, hc⟩
  | submit q b =>
    have hmono : ∀ q' : QueueId,
        m.nextEpoch q' ≤ (stepOp m (.submit q b)).nextEpoch q' :=
      fun q' => stepOp_next_mono m _ q'
    constructor
    · intro fe hfe
      cases b with
      | true =>
        have hfe' : fe ∈ (⟨q, m.nextEpoch q⟩ : FenceEpoch) :: m.fences := hfe
        rcases List.mem_cons.mp hfe' with h | h
        · subst h
          exact hmono q
        · exact le_trans (hf fe h) (hmono fe.queue)
      | false =>
        have hfe' : fe ∈ m.fences := hfe
        exact le_trans (hf fe hfe') (hmono fe.queue)
    · intro q'
      exact le_trans (hc q') (hmono q')
  | waitForFence i outcome =>
    simp only [stepOp]
    cases h : m.fences.get? i with
    | none => exact ⟨hf, hc⟩
    | some fe =>
      have hfe : fe ∈ m.fences := List.get?_mem h
      cases outcome with
      | timedOut => exact ⟨hf, hc⟩
      | deviceError => exact ⟨hf, hc⟩
      | signaled =>
        show LedgerModel.Inv { m with est := m.est.advance fe }
        refine inv_of_est_update m (m.est.advance fe)
          (advance_familiesIndices _ _) (fun q' => ?_) ⟨hf, hc⟩
        refine completed_advance_le m.est fe q' (m.nextEpoch q') (hc q')
          fun haddr => ?_
        have hb := hf fe hfe
        rwa [nextEpoch_congr m fe.queue q' haddr] at hb
  | waitForFences picks wf combined =>
    cases combined with
    | err => exact ⟨hf, hc⟩
    | ok b =>
      cases b with
      | false => exact ⟨hf, hc⟩
      | true =>
        have hmem : ∀ p ∈ (picks.filterMap fun p =>
            (m.fences.get? p.1).map fun fe =>
              ((⟨.armed, fe⟩ : Fence), p.2)),
            p.1.fepoch ∈ m.fences := by
          intro p hp
          obtain ⟨a, _, hmap⟩ := List.mem_filterMap.mp hp
          cases hg : m.fences.get? a.1 with
          | none => rw [hg] at hmap; cases hmap
          | some fe2 =>
            rw [hg] at hmap
            cases hmap
            exact List.get?_mem hg
        cases wf with
        | any =>
          show LedgerModel.Inv { m with
            est := (waitAnyLoop m.est (picks.filterMap fun p =>
              (m.fences.get? p.1).map fun fe =>
                ((⟨.armed, fe⟩ : Fence), p.2))).1 }
          refine inv_of_est_update m _
            (waitAnyLoop_familiesIndices _ _) (fun q' => ?_) ⟨hf, hc⟩
          refine waitAnyLoop_completed_le _ m.est q' (m.nextEpoch q') (hc q')
            fun p hp haddr => ?_
          have hb := hf p.1.fepoch (hmem p hp)
          rwa [nextEpoch_congr m p.1.fepoch.queue q' haddr] at hb
        | all =>
          show LedgerModel.Inv { m with
            est := (waitAllLoop m.est ((picks.filterMap fun p =>
              (m.fences.get? p.1).map fun fe =>
                ((⟨.armed, fe⟩ : Fence), p.2)).map Prod.fst)).1 }
          refine inv_of_est_update m _
            (waitAllLoop_familiesIndices _ _) (fun q' => ?_) ⟨hf, hc⟩
          refine waitAllLoop_completed_le _ m.est q' (m.nextEpoch q') (hc q')
            fun f hfmem haddr => ?_
          obtain ⟨p, hp, hpf⟩ := List.mem_map.mp hfmem
          have hb := hf p.1.fepoch (hmem p hp)
          rw [← hpf] at haddr
          rw [← hpf]
          rwa [nextEpoch_congr m p.1.fepoch.queue q' haddr] at hb

theorem runOps_inv (ops : List FactoryOp) :
    ∀ m : LedgerModel, m.Inv → (runOps m ops).Inv := by
  induction ops with
  | nil => intro m h; exact h
  | cons op rest ih => intro m h; exact ih (stepOp m op) (stepOp_inv m op h)

theorem runOps_next_mono (ops : List FactoryOp) :
    ∀ (m : LedgerModel) (q : QueueId),
      m.nextEpoch q ≤ (runOps m ops).nextEpoch q := by
  induction ops with
  | nil => intro m q; exact le_refl _
  | cons op rest ih =>
    intro m q
    exact le_trans (stepOp_next_mono m op q) (ih (stepOp m op) q)

theorem runOps_completed_mono (ops : List FactoryOp) :
    ∀ (m : LedgerModel) (q : QueueId),
      m.est.completed q ≤ ((runOps m ops).est).completed q := by
  induction ops with
  | nil => intro m q; exact le_refl _
  | cons op rest ih =>
    intro m q
    exact le_trans (stepOp_completed_mono m op q) (ih (stepOp m op) q)

theorem runOps_append (l1 l2 : List FactoryOp) :
    ∀ m : LedgerModel, runOps m (l1 ++ l2) = runOps (runOps m l1) l2 := by
  induction l1 with
  | nil => intro m; rfl
  | cons op rest ih => intro m; exact ih (stepOp m op)

theorem replicate_getD_zero (n j : Nat) :
    (List.replicate n (0 : Nat)).getD j 0 = 0 := by
  induction n generalizing j with
  | zero => cases j <;> rfl
  | succ k ih =>
    cases j with
    | zero => rfl
    | succ j' => exact ih j'

theorem map_replicate_getD (qc : List Nat) (i j : Nat) :
    ((qc.map fun n => List.replicate n (0 : Nat)).getD i []).getD j 0 = 0 := by
  induction qc generalizing i with
  | nil => rfl
  | cons n rest ih =>
    cases i with
    | zero => exact replicate_getD_zero n j
    | succ i' => exact ih i'

theorem initLedger_completed (familiesIndices queueCounts : List Nat)
    (q : QueueId) :
    ((initLedger familiesIndices queueCounts).est).completed q = 0 :=
  map_replicate_getD queueCounts _ _

theorem initLedger_inv (familiesIndices queueCounts : List Nat) :
    (initLedger familiesIndices queueCounts).Inv := by
  constructor
  · intro fe hfe
    cases hfe
  · intro q
    rw [initLedger_completed]
    exact Nat.zero_le _

-- ## Claim theorems

/-- C1 (no premature free): a pending-destroy resource is released by the
cleanup pass only when, for every queue in its last-use record, the stored
completed epoch of that queue is at least the recorded last-use epoch; in
particular, while some queue's completed epoch is still below the resource's
last-use epoch on it, cleanup retains the resource instead of releasing it. -/
theorem cleanup_no_premature_free (m : LedgerModel) (pending : List Resource)
    (r : Resource) (hr : r ∈ pending) :
    (r ∈ (factoryCleanup m pending).1 →
      ∀ p ∈ r.lastUse, p.2 ≤ m.est.completed p.1) ∧
    ((∃ p ∈ r.lastUse, m.est.completed p.1 < p.2) →
      r ∉ (factoryCleanup m pending).1 ∧ r ∈ (factoryCleanup m pending).2) := by
  unfold factoryCleanup registryCleanup
  rw [List.partition_eq_filter_filter]
  constructor
  · intro hmem p hp
    have hall := (List.mem_filter.mp hmem).2
    unfold canRelease at hall
    exact of_decide_eq_true (List.all_eq_true.mp hall p hp)
  · rintro ⟨p, hp, hlt⟩
    have hcr : canRelease m.est r = false := by
      cases hall : canRelease m.est r with
      | false => rfl
      | true =>
        unfold canRelease at hall
        exact absurd (of_decide_eq_true (List.all_eq_true.mp hall p hp))
          (not_le.mpr hlt)
    constructor
    · intro hmem
      have := (List.mem_filter.mp hmem).2
      rw [hcr] at this
      cases this
    · refine List.mem_filter.mpr ⟨hr, ?_⟩
      show (not ∘ canRelease m.est) r = true
      rw [Function.comp_apply, hcr]
      rfl

/-- Witness for C1: one resource last used at epoch 5 on queue (0,0) while the
stored completed epoch is 4; cleanup retains it. -/
theorem cleanup_no_premature_free_witness :
    ((⟨[(⟨0, 0⟩, 5)]⟩ : Resource) ∈ [(⟨[(⟨0, 0⟩, 5)]⟩ : Resource)]) ∧
    (((⟨[(⟨0, 0⟩, 5)]⟩ : Resource) ∈
        (factoryCleanup ⟨⟨[0], [[4]]⟩, [[4]], []⟩ [⟨[(⟨0, 0⟩, 5)]⟩]).1 →
      ∀ p ∈ (⟨[(⟨0, 0⟩, 5)]⟩ : Resource).lastUse,
        p.2 ≤ (⟨⟨[0], [[4]]⟩, [[4]], []⟩ : LedgerModel).est.completed p.1) ∧
    ((∃ p ∈ (⟨[(⟨0, 0⟩, 5)]⟩ : Resource).lastUse,
        (⟨⟨[0], [[4]]⟩, [[4]], []⟩ : LedgerModel).est.completed p.1 < p.2) →
      (⟨[(⟨0, 0⟩, 5)]⟩ : Resource) ∉
          (factoryCleanup ⟨⟨[0], [[4]]⟩, [[4]], []⟩ [⟨[(⟨0, 0⟩, 5)]⟩]).1 ∧
        (⟨[(⟨0, 0⟩, 5)]⟩ : Resource) ∈
          (factoryCleanup ⟨⟨[0], [[4]]⟩, [[4]], []⟩ [⟨[(⟨0, 0⟩, 5)]⟩]).2)) :=
  ⟨by decide, cleanup_no_premature_free _ _ _ (by decide)⟩

/-- C3 (advance postcondition): when `wait_for_fence` returns `Ok(true)` for a
fence bound to (queue Q, epoch E), the completed-epoch entry of Q is set to
exactly `max(previous completed[Q], E)`, and the completed epoch of every
queue stored at a different entry is unchanged. -/
theorem wait_for_fence_advance_post (st : EpochState) (f : Fence)
    (outcome : WaitOutcome) (st' : EpochState) (f' : Fence)
    (hin : st.inRange f.fepoch.queue)
    (hrun : wait_for_fence st f outcome = Except.ok (st', f', true)) :
    st'.completed f.fepoch.queue =
      max (st.completed f.fepoch.queue) f.fepoch.epoch ∧
    ∀ q : QueueId, st.addr q ≠ st.addr f.fepoch.queue →
      st'.completed q = st.completed q := by
  cases outcome with
  | timedOut => cases hrun
  | deviceError => cases hrun
  | signaled =>
    cases hrun
    constructor
    · rw [completed_advance, if_pos ⟨rfl, hin⟩]
    · intro q hq
      rw [completed_advance, if_neg]
      rintro ⟨ha, -⟩
      exact hq ha

/-- Witness for C3: waiting on a fence bound to (queue (0,0), epoch 5) over
completed state 3 yields completed state 5 = max(3, 5). -/
theorem wait_for_fence_advance_post_witness :
    (⟨[0], [[3]]⟩ : EpochState).inRange ⟨0, 0⟩ ∧
    ((⟨[0], [[5]]⟩ : EpochState).completed ⟨0, 0⟩ =
        max ((⟨[0], [[3]]⟩ : EpochState).completed ⟨0, 0⟩) 5 ∧
      ∀ q : QueueId, (⟨[0], [[3]]⟩ : EpochState).addr q ≠
          (⟨[0], [[3]]⟩ : EpochState).addr ⟨0, 0⟩ →
        (⟨[0], [[5]]⟩ : EpochState).completed q =
          (⟨[0], [[3]]⟩ : EpochState).completed q) :=
  ⟨by decide,
    wait_for_fence_advance_post ⟨[0], [[3]]⟩ ⟨.armed, ⟨⟨0, 0⟩, 5⟩⟩ .signaled
      ⟨[0], [[5]]⟩ ⟨.signaled, ⟨⟨0, 0⟩, 5⟩⟩ (by decide) rfl⟩

/-- C6 (timeout frame): an `Ok(false)` result from `wait_for_fence` or from
`wait_for_fences` is not an error, and it leaves the whole epoch state and
every fence's mark exactly as they were before the call. -/
theorem timeout_frame (st : EpochState) (f : Fence)
    (fences : List (Fence × StatusResult)) (waitFor : WaitFor) :
    (∀ (outcome : WaitOutcome) (st' : EpochState) (f' : Fence),
      wait_for_fence st f outcome = Except.ok (st', f', false) →
        st' = st ∧ f' = f) ∧
    (∀ (combined : StatusResult) (st' : EpochState) (fences' : List Fence)
        (r : Except Unit Bool),
      wait_for_fences st fences waitFor combined = (st', fences', r) →
        r = Except.ok false →
        st' = st ∧ fences' = fences.map Prod.fst) := by
  constructor
  · intro outcome st' f' hrun
    cases outcome with
    | signaled => cases hrun
    | deviceError => cases hrun
    | timedOut =>
      cases hrun
      exact ⟨rfl, rfl⟩
  · intro combined st' fences' r hrun hr
    cases combined with
    | err =>
      cases hrun
      cases hr
    | ok b =>
      cases b with
      | false =>
        cases hrun
        exact ⟨rfl, rfl⟩
      | true =>
        cases waitFor with
        | any =>
          cases hrun
          cases hb : ((waitAnyLoop st fences).2).2 with
          | true =>
            rw [hb] at hr
            simp at hr
          | false =>
            rw [hb] at hr
            simp at hr
        | all =>
          cases hrun
          cases hr

/-- Witness for C6: a timed-out single wait and a combined wait whose device
wait returned false both leave the state and fences untouched. -/
theorem timeout_frame_witness :
    ((⟨[0], [[3]]⟩ : EpochState) = ⟨[0], [[3]]⟩ ∧
      (⟨.armed, ⟨⟨0, 0⟩, 5⟩⟩ : Fence) = ⟨.armed, ⟨⟨0, 0⟩, 5⟩⟩) ∧
    ((⟨[0], [[3]]⟩ : EpochState) = ⟨[0], [[3]]⟩ ∧
      ([⟨.armed, ⟨⟨0, 0⟩, 5⟩⟩] : List Fence) =
        ([((⟨.armed, ⟨⟨0, 0⟩, 5⟩⟩ : Fence), StatusResult.ok false)]).map Prod.fst) :=
  ⟨(timeout_frame ⟨[0], [[3]]⟩ ⟨.armed, ⟨⟨0, 0⟩, 5⟩⟩
      [((⟨.armed, ⟨⟨0, 0⟩, 5⟩⟩ : Fence), StatusResult.ok false)] .any).1
      .timedOut ⟨[0], [[3]]⟩ ⟨.armed, ⟨⟨0, 0⟩, 5⟩⟩ rfl,
    (timeout_frame ⟨[0], [[3]]⟩ ⟨.armed, ⟨⟨0, 0⟩, 5⟩⟩
      [((⟨.armed, ⟨⟨0, 0⟩, 5⟩⟩ : Fence), StatusResult.ok false)] .any).2
      (.ok false) ⟨[0], [[3]]⟩ [⟨.armed, ⟨⟨0, 0⟩, 5⟩⟩] (.ok false) rfl rfl⟩

/-- C4 (any-policy folding): when the combined `Any` wait returns true and no
individual status query fails, the resulting completed epoch of every queue
whose entry exists is the `max`-fold of its previous value with the bound
epochs of exactly those fences individually confirmed signaled (not just the
first); a queue none of whose fences is individually signaled keeps its
previous completed epoch. -/
theorem wait_any_folds (st : EpochState) (fences : List (Fence × StatusResult))
    (hne : ∀ p ∈ fences, p.2 ≠ StatusResult.err) :
    ∀ (st' : EpochState) (fences' : List Fence) (r : Except Unit Bool),
      wait_for_fences st fences .any (.ok true) = (st', fences', r) →
        r = Except.ok true ∧
        (∀ q : QueueId, st.inRange q →
          st'.completed q =
            sigFold st.familiesIndices (st.addr q) (st.completed q) fences) ∧
        (∀ q : QueueId,
          (∀ p ∈ fences, p.2 = StatusResult.ok true →
            st.addr p.1.fepoch.queue ≠ st.addr q) →
          st'.completed q = st.completed q) := by
  intro st' fences' r hrun
  cases hrun
  refine ⟨?_, ?_, ?_⟩
  · rw [waitAnyLoop_ok fences st hne]
    simp
  · intro q hin
    exact waitAnyLoop_completed fences st q hin hne
  · intro q hq
    exact waitAnyLoop_untouched fences st q hq

/-- Witness for C4, the spec's scenario: three fences on three distinct
queues, only the second individually signaled; only its queue's completed
epoch advances (0 to 7), the others stay 0. -/
theorem wait_any_folds_witness :
    (∀ p ∈ [((⟨.armed, ⟨⟨0, 0⟩, 4⟩⟩ : Fence), StatusResult.ok false),
        ((⟨.armed, ⟨⟨1, 0⟩, 7⟩⟩ : Fence), StatusResult.ok true),
        ((⟨.armed, ⟨⟨2, 0⟩, 9⟩⟩ : Fence), StatusResult.ok false)],
      p.2 ≠ StatusResult.err) ∧
    ((Except.ok true : Except Unit Bool) = Except.ok true ∧
      (∀ q : QueueId, (⟨[0, 1, 2], [[0], [0], [0]]⟩ : EpochState).inRange q →
        (⟨[0, 1, 2], [[0], [7], [0]]⟩ : EpochState).completed q =
          sigFold [0, 1, 2] ((⟨[0, 1, 2], [[0], [0], [0]]⟩ : EpochState).addr q)
            ((⟨[0, 1, 2], [[0], [0], [0]]⟩ : EpochState).completed q)
            [((⟨.armed, ⟨⟨0, 0⟩, 4⟩⟩ : Fence), StatusResult.ok false),
              ((⟨.armed, ⟨⟨1, 0⟩, 7⟩⟩ : Fence), StatusResult.ok true),
              ((⟨.armed, ⟨⟨2, 0⟩, 9⟩⟩ : Fence), StatusResult.ok false)]) ∧
      (∀ q : QueueId,
        (∀ p ∈ [((⟨.armed, ⟨⟨0, 0⟩, 4⟩⟩ : Fence), StatusResult.ok false),
            ((⟨.armed, ⟨⟨1, 0⟩, 7⟩⟩ : Fence), StatusResult.ok true),
            ((⟨.armed, ⟨⟨2, 0⟩, 9⟩⟩ : Fence), StatusResult.ok false)],
          p.2 = StatusResult.ok true →
            (⟨[0, 1, 2], [[0], [0], [0]]⟩ : EpochState).addr p.1.fepoch.queue ≠
              (⟨[0, 1, 2], [[0], [0], [0]]⟩ : EpochState).addr q) →
        (⟨[0, 1, 2], [[0], [7], [0]]⟩ : EpochState).completed q =
          (⟨[0, 1, 2], [[0], [0], [0]]⟩ : EpochState).completed q)) :=
  ⟨by decide,
    wait_any_folds ⟨[0, 1, 2], [[0], [0], [0]]⟩
      [((⟨.armed, ⟨⟨0, 0⟩, 4⟩⟩ : Fence), StatusResult.ok false),
        ((⟨.armed, ⟨⟨1, 0⟩, 7⟩⟩ : Fence), StatusResult.ok true),
        ((⟨.armed, ⟨⟨2, 0⟩, 9⟩⟩ : Fence), StatusResult.ok false)]
      (by decide) ⟨[0, 1, 2], [[0], [7], [0]]⟩
      [⟨.armed, ⟨⟨0, 0⟩, 4⟩⟩, ⟨.signaled, ⟨⟨1, 0⟩, 7⟩⟩, ⟨.armed, ⟨⟨2, 0⟩, 9⟩⟩]
      (.ok true) rfl⟩

/-- C5 (all-policy advancement): when the combined `All` wait returns true,
every fence in the set is marked signaled and the completed epoch of every
fence's bound queue (whose entry exists) ends at least at that fence's bound
epoch, unconditionally: the outcome does not consult the per-fence status
queries at all. -/
theorem wait_all_advances (st : EpochState)
    (fences : List (Fence × StatusResult)) :
    ∀ (st' : EpochState) (fences' : List Fence) (r : Except Unit Bool),
      wait_for_fences st fences .all (.ok true) = (st', fences', r) →
        r = Except.ok true ∧
        fences' = (fences.map Prod.fst).map
          (fun f => { f with mark := FenceMark.signaled }) ∧
        (∀ f ∈ fences.map Prod.fst, st.inRange f.fepoch.queue →
          f.fepoch.epoch ≤ st'.completed f.fepoch.queue) ∧
        (∀ alt : List (Fence × StatusResult),
          alt.map Prod.fst = fences.map Prod.fst →
          wait_for_fences st alt .all (.ok true) =
            wait_for_fences st fences .all (.ok true)) := by
  intro st' fences' r hrun
  cases hrun
  refine ⟨rfl, waitAllLoop_snd _ _, ?_, ?_⟩
  · intro f hf hin
    exact waitAllLoop_advances _ st f hf hin
  · intro alt halt
    show ((waitAllLoop st (alt.map Prod.fst)).1,
        (waitAllLoop st (alt.map Prod.fst)).2, (Except.ok true : Except Unit Bool)) =
      ((waitAllLoop st (fences.map Prod.fst)).1,
        (waitAllLoop st (fences.map Prod.fst)).2, (Except.ok true : Except Unit Bool))
    rw [halt]

/-- Witness for C5: one fence bound to (queue (0,0), epoch 4) whose status
query would say unsignaled is still marked signaled and still advances its
queue's completed epoch from 1 to 4 under the `All` policy. -/
theorem wait_all_advances_witness :
    ((Except.ok true : Except Unit Bool) = Except.ok true ∧
      ([⟨.signaled, ⟨⟨0, 0⟩, 4⟩⟩] : List Fence) =
        (([((⟨.armed, ⟨⟨0, 0⟩, 4⟩⟩ : Fence), StatusResult.ok false)]).map
          Prod.fst).map (fun f => { f with mark := FenceMark.signaled }) ∧
      (∀ f ∈ ([((⟨.armed, ⟨⟨0, 0⟩, 4⟩⟩ : Fence), StatusResult.ok false)]).map
          Prod.fst,
        (⟨[0], [[1]]⟩ : EpochState).inRange f.fepoch.queue →
          f.fepoch.epoch ≤ (⟨[0], [[4]]⟩ : EpochState).completed f.fepoch.queue) ∧
      (∀ alt : List (Fence × StatusResult),
        alt.map Prod.fst =
          ([((⟨.armed, ⟨⟨0, 0⟩, 4⟩⟩ : Fence), StatusResult.ok false)]).map Prod.fst →
        wait_for_fences ⟨[0], [[1]]⟩ alt .all (.ok true) =
          wait_for_fences ⟨[0], [[1]]⟩
            [((⟨.armed, ⟨⟨0, 0⟩, 4⟩⟩ : Fence), StatusResult.ok false)] .all
            (.ok true))) :=
  wait_all_advances ⟨[0], [[1]]⟩
    [((⟨.armed, ⟨⟨0, 0⟩, 4⟩⟩ : Fence), StatusResult.ok false)]
    ⟨[0], [[4]]⟩ [⟨.signaled, ⟨⟨0, 0⟩, 4⟩⟩] (.ok true) rfl

/-- C2 (epoch monotonicity): starting from the ledger produced by init, along
every sequence of factory operations (submissions, fence waits, cleanup,
uploads) and for every queue, the `next` counter never decreases, the stored
completed epoch never decreases, and `completed ≤ next` holds at every
point of the trace. -/
theorem epoch_monotonicity (familiesIndices queueCounts : List Nat)
    (ops : List FactoryOp) (i j : Nat) (hij : i ≤ j) (q : QueueId) :
    (runOps (initLedger familiesIndices queueCounts) (ops.take i)).nextEpoch q ≤
        (runOps (initLedger familiesIndices queueCounts) (ops.take j)).nextEpoch q ∧
      ((runOps (initLedger familiesIndices queueCounts) (ops.take i)).est).completed q ≤
        ((runOps (initLedger familiesIndices queueCounts) (ops.take j)).est).completed q ∧
      ((runOps (initLedger familiesIndices queueCounts) (ops.take i)).est).completed q ≤
        (runOps (initLedger familiesIndices queueCounts) (ops.take i)).nextEpoch q := by
  have hsum : i + (j - i) = j := Nat.add_sub_cancel' hij
  have hsplit : ops.take j = ops.take i ++ (ops.drop i).take (j - i) := by
    have h := List.take_add ops i (j - i)
    rw [hsum] at h
    exact h
  refine ⟨?_, ?_, ?_⟩
  · rw [hsplit, runOps_append]
    exact runOps_next_mono _ _ q
  · rw [hsplit, runOps_append]
    exact runOps_completed_mono _ _ q
  · exact (runOps_inv _ _ (initLedger_inv familiesIndices queueCounts)).2 q

/-- Witness for C2: one family with one queue; a fence-binding submission
followed by a successful wait on that fence, compared at trace positions 1
and 2. -/
theorem epoch_monotonicity_witness :
    (1 ≤ 2) ∧
    ((runOps (initLedger [0] [1]) ([FactoryOp.submit ⟨0, 0⟩ true,
          FactoryOp.waitForFence 0 .signaled].take 1)).nextEpoch ⟨0, 0⟩ ≤
        (runOps (initLedger [0] [1]) ([FactoryOp.submit ⟨0, 0⟩ true,
          FactoryOp.waitForFence 0 .signaled].take 2)).nextEpoch ⟨0, 0⟩ ∧
      ((runOps (initLedger [0] [1]) ([FactoryOp.submit ⟨0, 0⟩ true,
          FactoryOp.waitForFence 0 .signaled].take 1)).est).completed ⟨0, 0⟩ ≤
        ((runOps (initLedger [0] [1]) ([FactoryOp.submit ⟨0, 0⟩ true,
          FactoryOp.waitForFence 0 .signaled].take 2)).est).completed ⟨0, 0⟩ ∧
      ((runOps (initLedger [0] [1]) ([FactoryOp.submit ⟨0, 0⟩ true,
          FactoryOp.waitForFence 0 .signaled].take 1)).est).completed ⟨0, 0⟩ ≤
        (runOps (initLedger [0] [1]) ([FactoryOp.submit ⟨0, 0⟩ true,
          FactoryOp.waitForFence 0 .signaled].take 1)).nextEpoch ⟨0, 0⟩) :=
  ⟨by decide, epoch_monotonicity [0] [1]
    [FactoryOp.submit ⟨0, 0⟩ true, FactoryOp.waitForFence 0 .signaled]
    1 2 (by decide) ⟨0, 0⟩⟩

/-- C7 (image-upload region check): `upload_image` rejects by assertion,
before any staging allocation, any call whose region byte size (texel count
from the extent under the format's surface dimensions, times bytes per texel)
differs from the content byte size, whose layer range violates
`start ≤ end ≤ layer count`, or whose mip level exceeds the image's level
count. -/
theorem upload_image_region_check (img : ImageDesc) (layers : SubresourceLayers)
    (extent : Extent) (contentLen elemSize nextFamily : Nat)
    (familiesIndices : List Nat)
    (hbad : totalBytes extent img.surface ≠ contentLen * elemSize ∨
      ¬(layers.layersStart ≤ layers.layersEnd ∧
        layers.layersEnd ≤ img.numLayers) ∨
      ¬layers.level ≤ img.levels) :
    upload_image img layers extent contentLen elemSize nextFamily
      familiesIndices = none := by
  unfold upload_image
  rw [if_neg]
  rintro ⟨-, h1, h2, h3, h4⟩
  rcases hbad with hb | hb | hb
  · exact hb h4
  · exact hb ⟨h1, h2⟩
  · exact hb h3

/-- Witness for C7: a one-byte content against a two-texel, 8-bit region is
rejected. -/
theorem upload_image_region_check_witness :
    (totalBytes ⟨2, 1, 1⟩ (⟨1, 1, 1, 8⟩ : SurfaceDesc) ≠ 1 * 1 ∨
      ¬((⟨1, 0, 1, 0⟩ : SubresourceLayers).layersStart ≤
          (⟨1, 0, 1, 0⟩ : SubresourceLayers).layersEnd ∧
        (⟨1, 0, 1, 0⟩ : SubresourceLayers).layersEnd ≤
          (⟨⟨1, 1, 1, 8⟩, 1, 1⟩ : ImageDesc).numLayers) ∨
      ¬(⟨1, 0, 1, 0⟩ : SubresourceLayers).level ≤
        (⟨⟨1, 1, 1, 8⟩, 1, 1⟩ : ImageDesc).levels) ∧
    upload_image ⟨⟨1, 1, 1, 8⟩, 1, 1⟩ ⟨1, 0, 1, 0⟩ ⟨2, 1, 1⟩ 1 1 0 [0] = none :=
  ⟨by decide,
    upload_image_region_check ⟨⟨1, 1, 1, 8⟩, 1, 1⟩ ⟨1, 0, 1, 0⟩ ⟨2, 1, 1⟩
      1 1 0 [0] (by decide)⟩

/-- C8 (staging allocation and per-family routing): both upload entry points
allocate a staging buffer of exactly the content byte size, copy the content
into it in full, and dispatch to the uploader at index
`families_indices[next.queue.family()]` — the family position of the
destination queue named by the next-state argument — and to no other. -/
theorem upload_staging_and_routing (contentLen elemSize nextFamily : Nat)
    (familiesIndices : List Nat) (img : ImageDesc) (layers : SubresourceLayers)
    (extent : Extent) :
    ((upload_buffer contentLen elemSize nextFamily familiesIndices).stagingSize =
        contentLen * elemSize ∧
      (upload_buffer contentLen elemSize nextFamily familiesIndices).copiedBytes =
        contentLen * elemSize ∧
      (upload_buffer contentLen elemSize nextFamily familiesIndices).familyIndex =
        familiesIndices.getD nextFamily 0) ∧
    ∀ d : UploadDispatch,
      upload_image img layers extent contentLen elemSize nextFamily
        familiesIndices = some d →
      d.stagingSize = contentLen * elemSize ∧
      d.copiedBytes = contentLen * elemSize ∧
      d.familyIndex = familiesIndices.getD nextFamily 0 := by
  refine ⟨⟨rfl, rfl, rfl⟩, ?_⟩
  intro d hd
  unfold upload_image at hd
  split at hd
  · cases hd
    exact ⟨rfl, rfl, rfl⟩
  · cases hd

/-- Witness for C8: a four-byte upload routed through family id 0, which the
factory stores at position 2. -/
theorem upload_staging_and_routing_witness :
    ((upload_buffer 4 1 0 [2]).stagingSize = 4 * 1 ∧
      (upload_buffer 4 1 0 [2]).copiedBytes = 4 * 1 ∧
      (upload_buffer 4 1 0 [2]).familyIndex = ([2] : List Nat).getD 0 0) ∧
    ((⟨4, 256, 4, 2⟩ : UploadDispatch).stagingSize = 4 * 1 ∧
      (⟨4, 256, 4, 2⟩ : UploadDispatch).copiedBytes = 4 * 1 ∧
      (⟨4, 256, 4, 2⟩ : UploadDispatch).familyIndex = ([2] : List Nat).getD 0 0) :=
  ⟨(upload_staging_and_routing 4 1 0 [2] ⟨⟨1, 1, 1, 8⟩, 1, 0⟩ ⟨1, 0, 1, 0⟩
      ⟨4, 1, 1⟩).1,
    (upload_staging_and_routing 4 1 0 [2] ⟨⟨1, 1, 1, 8⟩, 1, 0⟩ ⟨1, 0, 1, 0⟩
      ⟨4, 1, 1⟩).2 ⟨4, 256, 4, 2⟩ rfl⟩

/-- C9 (one factory per process): the init gate of `Factory::init` succeeds
exactly when it observes counter value 0, increments the counter on every
call, and therefore panics on every call made after a successful one. -/
theorem factory_singleton (c : Nat) :
    (factoryInitGate 0).1 = InitOutcome.ok ∧
    (factoryInitGate 0).2 = 1 ∧
    (c ≠ 0 → (factoryInitGate c).1 = InitOutcome.panicked) ∧
    (factoryInitGate c).2 = c + 1 := by
  refine ⟨rfl, rfl, ?_, rfl⟩
  intro hc
  show (if c = 0 then InitOutcome.ok else InitOutcome.panicked) = _
  rw [if_neg hc]

/-- Witness for C9: the second call, observing counter 1, panics. -/
theorem factory_singleton_witness :
    (factoryInitGate 1).1 = InitOutcome.panicked :=
  (factory_singleton 1).2.2.1 (by decide)

/-- C10 (reset precondition and atomicity): `reset_fences` panics if any
supplied fence is not currently signaled (before any reset is attempted);
when all are signaled, a failing device-level reset propagates the error with
no fence marked reset, and a successful one marks every fence reset. -/
theorem reset_fences_spec (fences : List Fence) (deviceOk : Bool) :
    ((∃ f ∈ fences, f.is_signaled = false) →
      reset_fences fences deviceOk = ResetOutcome.panicked) ∧
    ((∀ f ∈ fences, f.is_signaled = true) → deviceOk = false →
      reset_fences fences deviceOk = ResetOutcome.deviceError fences) ∧
    ((∀ f ∈ fences, f.is_signaled = true) → deviceOk = true →
      reset_fences fences deviceOk =
        ResetOutcome.ok (fences.map Fence.mark_reset)) := by
  refine ⟨?_, ?_, ?_⟩
  · rintro ⟨f, hf, hs⟩
    unfold reset_fences
    rw [if_neg]
    intro hall
    have := List.all_eq_true.mp hall f hf
    rw [hs] at this
    cases this
  · intro hall hdev
    subst hdev
    unfold reset_fences
    rw [if_pos (List.all_eq_true.mpr hall)]
    rfl
  · intro hall hdev
    subst hdev
    unfold reset_fences
    rw [if_pos (List.all_eq_true.mpr hall)]
    rfl

/-- Witness for C10: an armed (unsignaled) fence makes the call panic; a
signaled fence with a successful device reset comes back marked reset. -/
theorem reset_fences_spec_witness :
    reset_fences [⟨.armed, ⟨⟨0, 0⟩, 3⟩⟩] true = ResetOutcome.panicked ∧
    reset_fences [⟨.signaled, ⟨⟨0, 0⟩, 3⟩⟩] true =
      ResetOutcome.ok (([⟨.signaled, ⟨⟨0, 0⟩, 3⟩⟩] : List Fence).map
        Fence.mark_reset) :=
  ⟨(reset_fences_spec [⟨.armed, ⟨⟨0, 0⟩, 3⟩⟩] true).1 (by decide),
    (reset_fences_spec [⟨.signaled, ⟨⟨0, 0⟩, 3⟩⟩] true).2.2 (by decide) rfl⟩
